import Mathlib

/-!
# Verification of `zennit/canonizers.py`

Shallow embedding of the canonizer subsystem of the repository
(`src/zennit/canonizers.py`): batch-norm fusion into adjacent linear
modules (left and right variants), the padding-correction forward hook,
the threshold-ReLU rewrite, the pattern matchers, the named matcher and
the composite canonizer.

Real (floating point) tensor arithmetic is embedded as exact arithmetic
over `ℚ`; the float `** .5` of the source is embedded as `Rat.sqrt`,
used consistently on both sides of every identity.  Channel dimensions
are indexed by `ℕ`, spatial dimensions by `ℤ` (so that zero padding is
explicit).  A tensor is a total function from its indices to `ℚ`; an
image is `(channel : ℕ) → (row : ℤ) → (col : ℤ) → ℚ`.  The batch
dimension of the source is transparent to every operation modelled here
and is dropped.
-/

/-- Parameters of a batch normalization module
(`running_mean`, `running_var`, `weight`, `bias`, `eps`),
mirroring the attributes read by `MergeBatchNorm.register`;
`num_features` is the length (`shape[0]`) of the four parameter
tensors. -/
structure BNMod where
  num_features : ℕ
  weight : ℕ → ℚ
  bias : ℕ → ℚ
  running_mean : ℕ → ℚ
  running_var : ℕ → ℚ
  eps : ℚ

/-- The identity tag of a registered hook, mirroring the three hooks
this file ever installs (`MergeBatchNormtoRight.convhook`,
`ThreshReLUMergeBatchNorm.prehook`, `ThreshReLUMergeBatchNorm.fwdhook`). -/
inductive HookTag
  | convhookT
  | threshPreT
  | threshFwdT
deriving DecidableEq

/-- A fully connected module (`torch.nn.Linear`): weight of shape
`(out_features, in_features)` and optional bias. -/
structure FCMod where
  out_features : ℕ
  in_features : ℕ
  weight : ℕ → ℕ → ℚ
  bias : Option (ℕ → ℚ)

/-- A 2d convolution module (`torch.nn.Conv2d`): weight of shape
`(out_channels, in_channels, kh, kw)`, optional bias, padding `(p1, p2)`,
stride `(s1, s2)`.  `canonization_params` holds the synthesized bias
kernel when present, and `fhooks` the module's forward hooks, mirroring
dynamic attribute injection and `register_forward_hook` of the source. -/
structure Conv2dMod where
  in_channels : ℕ
  out_channels : ℕ
  kh : ℕ
  kw : ℕ
  p1 : ℕ
  p2 : ℕ
  s1 : ℕ
  s2 : ℕ
  weight : ℕ → ℕ → ℕ → ℕ → ℚ
  bias : Option (ℕ → ℚ)
  canonization_params : Option (ℕ → ℤ → ℤ → ℚ)
  fhooks : List HookTag

/-- A transposed 2d convolution module (`torch.nn.ConvTranspose2d`,
matched by the `ConvolutionTranspose` type group): weight of shape
`(in_channels, out_channels, kh, kw)` — the output-channel axis is
axis 1 — with optional bias, padding and stride. -/
structure ConvT2dMod where
  in_channels : ℕ
  out_channels : ℕ
  kh : ℕ
  kw : ℕ
  p1 : ℕ
  p2 : ℕ
  s1 : ℕ
  s2 : ℕ
  weight : ℕ → ℕ → ℕ → ℕ → ℚ
  bias : Option (ℕ → ℚ)

/-- A linear-kind node: the `Linear` type group of the source contains
fully connected, convolution and transposed-convolution modules. -/
inductive LinMod
  | fc : FCMod → LinMod
  | conv : Conv2dMod → LinMod
  | convT : ConvT2dMod → LinMod

/-- The per-channel `weights`/`biases` stored by
`ThreshReLUMergeBatchNorm.register` on the activation, together with the
input snapshot written by `prehook` (the key `original_x`). -/
structure ThreshParams where
  weights : ℕ → ℚ
  biases : ℕ → ℚ
  original_x : Option (ℕ → ℤ → ℤ → ℚ)

/-- A ReLU activation module, with the dynamic `canonization_params`
attribute and its pre- and forward hook lists. -/
structure ReLUMod where
  canonization_params : Option ThreshParams
  prehooks : List HookTag
  fhooks : List HookTag

/-- Zero-extension of a 2d channel image outside `[0, H) × [0, W)`:
the effect of zero padding before a convolution window is read. -/
def zext (H W : ℕ) (x : ℕ → ℤ → ℤ → ℚ) (i : ℕ) (u v : ℤ) : ℚ :=
  if 0 ≤ u ∧ u < (H : ℤ) ∧ 0 ≤ v ∧ v < (W : ℤ) then x i u v else 0

/-- Value of an optional bias: `0` when the bias is `None`. -/
def biasVal (b : Option (ℕ → ℚ)) (o : ℕ) : ℚ :=
  (b.getD (fun _ => 0)) o

/-- Forward pass of a fully connected module on a vector `x`. -/
def FCMod.fwd (m : FCMod) (x : ℕ → ℚ) (o : ℕ) : ℚ :=
  (∑ i ∈ Finset.range m.in_features, m.weight o i * x i) + biasVal m.bias o

/-- Forward pass of a 2d convolution on an input of spatial size
`H × W`, at output channel `o` and output position `(r, c)`:
cross-correlation with zero padding `(p1, p2)` and stride `(s1, s2)`. -/
def Conv2dMod.fwd (m : Conv2dMod) (H W : ℕ) (x : ℕ → ℤ → ℤ → ℚ)
    (o : ℕ) (r c : ℤ) : ℚ :=
  (∑ i ∈ Finset.range m.in_channels, ∑ qh ∈ Finset.range m.kh,
    ∑ qw ∈ Finset.range m.kw,
      m.weight o i qh qw *
        zext H W x i (m.s1 * r - m.p1 + qh) (m.s2 * c - m.p2 + qw))
    + biasVal m.bias o

/-- Forward pass of a transposed 2d convolution on an input of spatial
size `H × W`, at output channel `o` and output position `(r, c)`:
output position `r` collects the contributions of input positions `u`
and kernel rows `qh` with `s1 * u + qh - p1 = r`, and likewise for
columns. -/
def ConvT2dMod.fwd (m : ConvT2dMod) (H W : ℕ) (x : ℕ → ℤ → ℤ → ℚ)
    (o : ℕ) (r c : ℤ) : ℚ :=
  (∑ i ∈ Finset.range m.in_channels, ∑ u ∈ Finset.range H,
    ∑ v ∈ Finset.range W, ∑ qh ∈ Finset.range m.kh, ∑ qw ∈ Finset.range m.kw,
      (if (m.s1 * u : ℤ) + qh - m.p1 = r ∧ (m.s2 * v : ℤ) + qw - m.p2 = c
        then m.weight i o qh qw * x i u v else 0))
    + biasVal m.bias o

/-- The batch-norm denominator `(running_var + eps) ** .5` of the
source, per channel. -/
def bnDenom (bn : BNMod) (i : ℕ) : ℚ :=
  Rat.sqrt (bn.running_var i + bn.eps)

/-- The affine scale of a batch-norm module seen as an affine map:
`scale = weight / denominator`. -/
def bnScale (bn : BNMod) (i : ℕ) : ℚ :=
  bn.weight i / bnDenom bn i

/-- The affine shift of a batch-norm module seen as an affine map:
`shift = bias - running_mean * scale`. -/
def bnShift (bn : BNMod) (i : ℕ) : ℚ :=
  bn.bias i - bn.running_mean i * bnScale bn i

/-- Forward pass of batch normalization on a channel image:
`(x - running_mean) / sqrt(running_var + eps) * weight + bias`. -/
def bnFwd (bn : BNMod) (x : ℕ → ℤ → ℤ → ℚ) (i : ℕ) (u v : ℤ) : ℚ :=
  (x i u v - bn.running_mean i) / bnDenom bn i * bn.weight i + bn.bias i

/-- Forward pass of batch normalization on a (flat) vector, per
feature. -/
def bnFwdVec (bn : BNMod) (x : ℕ → ℚ) (i : ℕ) : ℚ :=
  (x i - bn.running_mean i) / bnDenom bn i * bn.weight i + bn.bias i

/-- Reset of the batch-norm parameters to the identity affine map, as
done at the end of both `merge_batch_norm` variants:
`running_mean := 0`, `running_var := 1`, `bias := 0`, `weight := 1`,
`eps := 0.` (shapes, i.e. `num_features`, are preserved by the
`zeros_like`/`ones_like` of the source). -/
def bnReset (bn : BNMod) : BNMod :=
  { bn with
    weight := fun _ => 1
    bias := fun _ => 0
    running_mean := fun _ => 0
    running_var := fun _ => 1
    eps := 0 }

/-- Left fusion of a batch norm into one linear-kind module
(`MergeBatchNorm.merge_batch_norm`, loop body): the weight is scaled by
`scale` broadcast along the output-channel axis (axis 1 of the weight
for `ConvolutionTranspose`, axis 0 otherwise), and the new bias is
`(original_bias - running_mean) * scale + batch_norm.bias`, where a
missing bias is first synthesized as zeros. -/
def MergeBatchNorm_mergeFC (bn : BNMod) (f : FCMod) : FCMod :=
  { f with
    weight := fun o i => f.weight o i * bnScale bn o
    bias := some fun o =>
      (biasVal f.bias o - bn.running_mean o) * bnScale bn o + bn.bias o }

/-- Left fusion into a 2d convolution: same formulas, broadcast index
`(slice(None), None, None, None)` (output-channel axis 0). -/
def MergeBatchNorm_mergeConv (bn : BNMod) (m : Conv2dMod) : Conv2dMod :=
  { m with
    weight := fun o i a b => m.weight o i a b * bnScale bn o
    bias := some fun o =>
      (biasVal m.bias o - bn.running_mean o) * bnScale bn o + bn.bias o }

/-- Left fusion into a transposed convolution: broadcast index
`(None, slice(None), None, None)` (output-channel axis 1). -/
def MergeBatchNorm_mergeConvT (bn : BNMod) (m : ConvT2dMod) : ConvT2dMod :=
  { m with
    weight := fun i o a b => m.weight i o a b * bnScale bn o
    bias := some fun o =>
      (biasVal m.bias o - bn.running_mean o) * bnScale bn o + bn.bias o }

/-- Left fusion dispatched on the module kind (the
`isinstance(module, ConvolutionTranspose)` test of the source selects
the broadcast index). -/
def MergeBatchNorm_mergeMod (bn : BNMod) : LinMod → LinMod
  | .fc f => .fc (MergeBatchNorm_mergeFC bn f)
  | .conv m => .conv (MergeBatchNorm_mergeConv bn m)
  | .convT m => .convT (MergeBatchNorm_mergeConvT bn m)

/-- Left fusion over the whole list of matched linear modules followed
by the reset of the batch norm (`MergeBatchNorm.merge_batch_norm`). -/
def MergeBatchNorm_merge (mods : List LinMod) (bn : BNMod) :
    List LinMod × BNMod :=
  (mods.map (MergeBatchNorm_mergeMod bn), bnReset bn)

/-- Snapshot of exactly the state `MergeBatchNorm.register` saves for
one linear module: the weight tensor and the (possibly absent) bias
tensor, i.e. `(linear.weight.data, getattr(linear.bias, 'data', None))`. -/
inductive LinSnap
  | fc : (ℕ → ℕ → ℚ) → Option (ℕ → ℚ) → LinSnap
  | conv : (ℕ → ℕ → ℕ → ℕ → ℚ) → Option (ℕ → ℚ) → LinSnap
  | convT : (ℕ → ℕ → ℕ → ℕ → ℚ) → Option (ℕ → ℚ) → LinSnap

/-- Take the register-time snapshot of a linear module. -/
def snapMod : LinMod → LinSnap
  | .fc f => .fc f.weight f.bias
  | .conv m => .conv m.weight m.bias
  | .convT m => .convT m.weight m.bias

/-- Write a snapshot back into a linear module (`MergeBatchNorm.remove`
loop body): only `weight` and `bias` are assigned; a `None` snapshot
restores `linear.bias = None`.  The mismatched-kind cases cannot arise:
`remove` zips each module with the snapshot taken from it. -/
def restoreMod : LinSnap → LinMod → LinMod
  | .fc w b, .fc f => .fc { f with weight := w, bias := b }
  | .conv w b, .conv m => .conv { m with weight := w, bias := b }
  | .convT w b, .convT m => .convT { m with weight := w, bias := b }
  | _, m => m

/-- Write the snapshot of the four batch-norm parameter tensors and
`eps` back (`MergeBatchNorm.remove`, last two statements). -/
def restoreBN (snap : BNMod) (bn : BNMod) : BNMod :=
  { bn with
    weight := snap.weight
    bias := snap.bias
    running_mean := snap.running_mean
    running_var := snap.running_var
    eps := snap.eps }

/-- State captured by a `MergeBatchNorm` instance at `register` time:
`linear_params` and `batch_norm_params` together with `batch_norm_eps`
(the latter two are bundled as a `BNMod` copy). -/
structure LeftInst where
  linear_params : List LinSnap
  batch_norm_params : BNMod

/-- `MergeBatchNorm.register`: snapshot the parameters, then merge.
Returns the instance state and the mutated modules. -/
def MergeBatchNorm_register (mods : List LinMod) (bn : BNMod) :
    LeftInst × List LinMod × BNMod :=
  (⟨mods.map snapMod, bn⟩, MergeBatchNorm_merge mods bn)

/-- `MergeBatchNorm.remove`: restore every linear module and the batch
norm from the snapshots. -/
def MergeBatchNorm_remove (inst : LeftInst) (mods : List LinMod)
    (bn : BNMod) : List LinMod × BNMod :=
  ((mods.zip inst.linear_params).map (fun p => restoreMod p.2 p.1),
    restoreBN inst.batch_norm_params bn)

/-- The bias kernel computed by `MergeBatchNormtoRight.merge_batch_norm`
for a convolution with nonzero padding: the constant per-channel `shift`
patch of the kernel's spatial size, run through a bias-free copy of the
convolution with the same padding and weight but stride 1
(`torch.nn.Conv2d(..., kernel_size, padding, ...)` leaves stride at its
default 1). -/
def biasKernel (m : Conv2dMod) (bn : BNMod) (o : ℕ) (r c : ℤ) : ℚ :=
  Conv2dMod.fwd
    { m with
      s1 := 1
      s2 := 1
      bias := none
      canonization_params := none
      fhooks := [] }
    m.kh m.kw (fun i _ _ => bnShift bn i) o r c

/-- Index transformation performed along one spatial axis by
`MergeBatchNormtoRight.convhook` on the bias kernel, for the
(stride-subsampled) full-resolution coordinate `rho`:
with `padding = 0` the axis is untouched (the kernel has extent 1 on it
and broadcasts, so index 0 is read); with `padding > 0` the first
`padding` border entries are kept (`rho` itself), the single interior
entry at index `padding` serves the `ext - k + 1` interior positions,
and the remaining border entries follow. -/
def hookIdx (ext k p : ℕ) (rho : ℤ) : ℤ :=
  if p = 0 then 0
  else if rho < p then rho
  else if rho < p + ((ext : ℤ) - k + 1) then p
  else rho - ((ext : ℤ) - k)

/-- The additive bias map produced by `MergeBatchNormtoRight.convhook`
from the stored bias kernel `K`, for an input of spatial size `H × W`,
evaluated at output position `(r, c)`: the hook concatenates
border/expanded-interior/border along each padded axis and then keeps
only coordinates that are exact multiples of the stride, so output
position `r` reads full-resolution coordinate `s1 * r`. -/
def convhookMap (m : Conv2dMod) (K : ℕ → ℤ → ℤ → ℚ) (H W : ℕ)
    (o : ℕ) (r c : ℤ) : ℚ :=
  K o (hookIdx H m.kh m.p1 (m.s1 * r)) (hookIdx W m.kw m.p2 (m.s2 * c))

/-- Effect of one forward hook on a convolution output:
`convhook` adds the bias map computed from
`module.canonization_params["bias_kernel"]`; the other hook tags are
never installed on a convolution. -/
def applyConvHook (tag : HookTag) (m : Conv2dMod) (H W : ℕ)
    (y : ℕ → ℤ → ℤ → ℚ) : ℕ → ℤ → ℤ → ℚ :=
  match tag with
  | .convhookT => fun o r c =>
      y o r c +
        convhookMap m (m.canonization_params.getD (fun _ _ _ => 0)) H W o r c
  | _ => y

/-- Forward evaluation of a convolution module including its forward
hooks, run in registration order after the convolution itself. -/
def Conv2dMod.hookedFwd (m : Conv2dMod) (H W : ℕ) (x : ℕ → ℤ → ℤ → ℚ) :
    ℕ → ℤ → ℤ → ℚ :=
  m.fhooks.foldl (fun y tag => applyConvHook tag m H W y) (m.fwd H W x)

/-- Right fusion of a batch norm into one linear-kind module
(`MergeBatchNormtoRight.merge_batch_norm`, loop body).  The weight is
scaled by `scale` broadcast along the input-channel axis (axis 0 for
`ConvolutionTranspose`, axis 1 otherwise); a missing bias is synthesized
as zeros first.  The bias is then updated with the closed form for
`torch.nn.Linear` and for `torch.nn.Conv2d` with zero padding; for
`torch.nn.Conv2d` with nonzero padding the bias kernel is stored as
`canonization_params` and `convhook` is registered (the returned list
holds the position of the new hook handle); for any other module kind
(for example a transposed convolution) the bias is left untouched and no
hook is installed. -/
def MergeBatchNormtoRight_mergeFC (bn : BNMod) (f : FCMod) : FCMod :=
  { f with
    weight := fun o i => f.weight o i * bnScale bn i
    bias := some fun o =>
      (∑ i ∈ Finset.range f.in_features, f.weight o i * bnShift bn i)
        + biasVal f.bias o }

/-- Right fusion into a 2d convolution
(`MergeBatchNormtoRight.merge_batch_norm`, `torch.nn.Conv2d` branch):
the weight is scaled along input-channel axis 1; with padding `(0, 0)`
the bias receives the closed form
`(original_weight * shift[index]).sum(dim=[1, 2, 3]) + original_bias`;
with nonzero padding the bias is left as-is (after synthesizing zeros
when absent), the bias kernel is stored as `canonization_params`, and
`convhook` is installed as a forward hook.  The second component is the
list of hook-handle positions returned. -/
def MergeBatchNormtoRight_mergeConv (bn : BNMod) (m : Conv2dMod) :
    Conv2dMod × List ℕ :=
  if m.p1 = 0 ∧ m.p2 = 0 then
    ({ m with
      weight := fun o i a b => m.weight o i a b * bnScale bn i
      bias := some fun o =>
        (∑ i ∈ Finset.range m.in_channels, ∑ qh ∈ Finset.range m.kh,
          ∑ qw ∈ Finset.range m.kw, m.weight o i qh qw * bnShift bn i)
          + biasVal m.bias o }, [])
  else
    ({ m with
      weight := fun o i a b => m.weight o i a b * bnScale bn i
      bias := some (biasVal m.bias)
      canonization_params := some (biasKernel m bn)
      fhooks := m.fhooks ++ [.convhookT] }, [m.fhooks.length])

/-- Right fusion into a transposed convolution: the weight is scaled
along input-channel axis 0 (the `ConvolutionTranspose` index branch); a
missing bias is synthesized as zeros; the bias-update dispatch
(`isinstance Conv2d` / `elif isinstance Linear`) matches neither branch,
so the bias is never updated and no hook is installed. -/
def MergeBatchNormtoRight_mergeConvT (bn : BNMod) (m : ConvT2dMod) :
    ConvT2dMod :=
  { m with
    weight := fun i o a b => m.weight i o a b * bnScale bn i
    bias := some (biasVal m.bias) }

/-- Right fusion dispatched on the module kind. -/
def MergeBatchNormtoRight_mergeMod (bn : BNMod) : LinMod → LinMod × List ℕ
  | .fc f => (.fc (MergeBatchNormtoRight_mergeFC bn f), [])
  | .conv m =>
      let r := MergeBatchNormtoRight_mergeConv bn m
      (.conv r.1, r.2)
  | .convT m => (.convT (MergeBatchNormtoRight_mergeConvT bn m), [])

/-- State captured by a `MergeBatchNormtoRight` instance: the parameter
snapshots and the handles of the hooks it installed (every sequential
matcher passes a single linear module, so one snapshot suffices; a
handle is the position of the hook in the module's hook list). -/
structure RightInst where
  linear_params : LinSnap
  batch_norm_params : BNMod
  handles : List ℕ

/-- `MergeBatchNormtoRight.register`: snapshot, merge, collect the
returned hook handles. -/
def MergeBatchNormtoRight_register (lin : LinMod) (bn : BNMod) :
    RightInst × LinMod × BNMod :=
  let merged := MergeBatchNormtoRight_mergeMod bn lin
  (⟨snapMod lin, bn, merged.2⟩, merged.1, bnReset bn)

/-- Detach the hook a handle refers to: the handle removes exactly the
registration it was returned for, leaving every other entry of the hook
list in place. -/
def removeHandleAt (n : ℕ) (l : List HookTag) : List HookTag :=
  l.take n ++ l.drop (n + 1)

/-- Apply one stored hook handle to a linear module (only convolutions
ever receive hooks from this canonizer family). -/
def removeConvHandle (lin : LinMod) (n : ℕ) : LinMod :=
  match lin with
  | .conv m => .conv { m with fhooks := removeHandleAt n m.fhooks }
  | _ => lin

/-- `MergeBatchNormtoRight.remove`: restore the parameters
(`super().remove()`), detach every stored handle, and delete the
`canonization_params` attribute of a `torch.nn.Conv2d` whose padding is
not `(0, 0)`. -/
def MergeBatchNormtoRight_remove (inst : RightInst) (lin : LinMod)
    (bn : BNMod) : LinMod × BNMod :=
  let lin1 := restoreMod inst.linear_params lin
  let bn1 := restoreBN inst.batch_norm_params bn
  let lin2 := inst.handles.foldl removeConvHandle lin1
  let lin3 :=
    match lin2 with
    | .conv m =>
        if m.p1 = 0 ∧ m.p2 = 0 then .conv m
        else .conv { m with canonization_params := none }
    | other => other
  (lin3, bn1)

/-- Elementwise ReLU forward pass on a channel image. -/
def reluFwd (x : ℕ → ℤ → ℤ → ℚ) (i : ℕ) (u v : ℤ) : ℚ :=
  max (x i u v) 0

/-- `ThreshReLUMergeBatchNorm.prehook`: snapshot the raw input of the
activation into `module.canonization_params["original_x"]`. -/
def applyReluPreHook (tag : HookTag) (st : ReLUMod) (x : ℕ → ℤ → ℤ → ℚ) :
    ReLUMod :=
  match tag with
  | .threshPreT =>
      { st with
        canonization_params :=
          st.canonization_params.map (fun p => { p with original_x := some x }) }
  | _ => st

/-- `ThreshReLUMergeBatchNorm.fwdhook`: discard the activation's own
output and recompute, from the snapshot `x` stored by the pre-hook and
the per-channel `weights`/`biases`, `y = weights * x + biases` and
`baseline_vals = -(biases / weights)`, returning `x` where `y > 0` and
`baseline_vals` elsewhere.  The cases with no stored state leave the
output unchanged; they are unreachable because `register` always stores
the parameters before installing the hooks. -/
def applyReluFwdHook (tag : HookTag) (st : ReLUMod) (y : ℕ → ℤ → ℤ → ℚ) :
    ℕ → ℤ → ℤ → ℚ :=
  match tag with
  | .threshFwdT =>
      match st.canonization_params with
      | some p =>
          match p.original_x with
          | some x => fun i u v =>
              if p.weights i * x i u v + p.biases i > 0 then x i u v
              else -(p.biases i / p.weights i)
          | none => y
      | none => y
  | _ => st.canonization_params.elim y (fun _ => y)

/-- One forward evaluation of the activation node with its hooks: the
pre-hooks run on the input in registration order, then the ReLU itself,
then the forward hooks on the output. -/
def ReLUMod.hookedFwd (st : ReLUMod) (x : ℕ → ℤ → ℤ → ℚ) :
    ℕ → ℤ → ℤ → ℚ :=
  let st1 := st.prehooks.foldl (fun s tag => applyReluPreHook tag s x) st
  st1.fhooks.foldl (fun y tag => applyReluFwdHook tag st1 y) (reluFwd x)

/-- State captured by a `ThreshReLUMergeBatchNorm` instance: the
underlying right-merge state plus the handles of the two hooks installed
on the activation (positions in its pre- and forward hook lists). -/
structure ThreshInst where
  right : RightInst
  preHandles : List ℕ
  fwdHandles : List ℕ

/-- `ThreshReLUMergeBatchNorm.register`: compute `scale`/`shift` from
the batch norm's own (pre-merge) parameters and store them on the
activation, perform the right merge, then install the pre-hook and
forward hook on the activation. -/
def ThreshReLU_register (lin : LinMod) (bn : BNMod) (relu : ReLUMod) :
    ThreshInst × LinMod × BNMod × ReLUMod :=
  let relu1 : ReLUMod :=
    { relu with
      canonization_params := some ⟨bnScale bn, bnShift bn, none⟩ }
  let reg := MergeBatchNormtoRight_register lin bn
  let relu2 : ReLUMod := { relu1 with prehooks := relu1.prehooks ++ [.threshPreT] }
  let relu3 : ReLUMod := { relu2 with fhooks := relu2.fhooks ++ [.threshFwdT] }
  (⟨reg.1, [relu1.prehooks.length], [relu2.fhooks.length]⟩,
    reg.2.1, reg.2.2, relu3)

/-- `ThreshReLUMergeBatchNorm.remove`: undo the right merge and detach
its handles (`super().remove()`), detach the two activation hooks, and
delete the activation's `canonization_params` attribute. -/
def ThreshReLU_remove (inst : ThreshInst) (lin : LinMod) (bn : BNMod)
    (relu : ReLUMod) : LinMod × BNMod × ReLUMod :=
  let res := MergeBatchNormtoRight_remove inst.right lin bn
  let relu1 := inst.preHandles.foldl
    (fun r n => { r with prehooks := removeHandleAt n r.prehooks }) relu
  let relu2 := inst.fwdHandles.foldl
    (fun r n => { r with fhooks := removeHandleAt n r.fhooks }) relu1
  (res.1, res.2, { relu2 with canonization_params := none })

/-- Modelled from the spec: a leaf of the computation graph together
with its kind classification.  The classification predicates
(`zennit.types.Linear`, `zennit.types.BatchNorm`, `torch.nn.ReLU`,
`torch.nn.AdaptiveAvgPool2d`) and the traversal `collect_leaves` live in
modules that are not under `src/`; per the spec they classify a node as
Linear / ConvolutionTranspose / Normalization / Activation / Pooling,
and `collect_leaves` yields the leaves in evaluation order. -/
inductive Leaf
  | lin : LinMod → Leaf
  | bn : BNMod → Leaf
  | relu : ReLUMod → Leaf
  | pool : Leaf
  | other : Leaf

/-- `weight.shape[0]` of a linear-kind module: the first axis of the
weight tensor, which holds the output channels for fully connected and
convolution modules but the input channels for a transposed
convolution. -/
def LinMod.weightShape0 : LinMod → ℕ
  | .fc f => f.out_features
  | .conv m => m.out_channels
  | .convT m => m.in_channels

/-- The output-channel count of a linear-kind module (axis 1 of the
weight for a transposed convolution, axis 0 otherwise). -/
def LinMod.outChannels : LinMod → ℕ
  | .fc f => f.out_features
  | .conv m => m.out_channels
  | .convT m => m.out_channels

/-- The loop of `SequentialMergeBatchNorm.apply`: walk the leaves with
the previous leaf at hand; when the previous leaf is Linear-kind, the
current one is a batch norm, and `last_leaf.weight.shape[0] ==
leaf.weight.shape[0]`, register a merge of the pair. -/
def seqWindow (last : Option Leaf) (l : Leaf) : Option (LinMod × BNMod) :=
  match last, l with
  | some (.lin m), .bn b =>
      if m.weightShape0 = b.num_features then some (m, b) else none
  | _, _ => none

/-- The loop of `SequentialMergeBatchNorm.apply` over the leaf
sequence, carrying the previous leaf. -/
def seqScan : Option Leaf → List Leaf → List (LinMod × BNMod)
  | _, [] => []
  | last, l :: rest => (seqWindow last l).toList ++ seqScan (some l) rest

/-- `SequentialMergeBatchNorm.apply` on a leaf sequence: the list of
matched (linear, batch norm) pairs, in traversal order. -/
def SequentialMergeBatchNorm_apply (leaves : List Leaf) :
    List (LinMod × BNMod) :=
  seqScan none leaves

/-- The loop of `MergeBatchNormtoRight.apply`: register a merge whenever
a batch norm is immediately followed by a Linear-kind leaf (no channel
gate). -/
def rightScan : Option Leaf → List Leaf → List (LinMod × BNMod)
  | _, [] => []
  | last, l :: rest =>
      (match last, l with
        | some (.bn b), .lin m => [(m, b)]
        | _, _ => []) ++ rightScan (some l) rest

/-- `MergeBatchNormtoRight.apply` on a leaf sequence. -/
def MergeBatchNormtoRight_apply (leaves : List Leaf) :
    List (LinMod × BNMod) :=
  rightScan none leaves

/-- Modelled from the spec: the loop of `ThreshReLUMergeBatchNorm.apply`
with the intended activation and pooling classifications (the source
refers to names `ReLU` and `AdaptiveAvgPool2d`; these classifiers are
not importable from `src/`, see `Leaf`).  A 3-wide window
batch norm → ReLU → Linear registers an instance; otherwise (`elif`) a
4-wide window batch norm → ReLU → AdaptiveAvgPool2d → Linear registers
an instance. -/
def threshWindow (oldest old mid : Option Leaf) (l : Leaf) :
    Option (LinMod × BNMod × ReLUMod) :=
  match oldest, old, mid, l with
  | _, some (.bn b), some (.relu r), .lin m => some (m, b, r)
  | some (.bn b), some (.relu r), some .pool, .lin m => some (m, b, r)
  | _, _, _, _ => none

/-- Modelled from the spec: the loop of `ThreshReLUMergeBatchNorm.apply`
over the leaf sequence, carrying the previous three leaves. -/
def threshScan : Option Leaf → Option Leaf → Option Leaf → List Leaf →
    List (LinMod × BNMod × ReLUMod)
  | _, _, _, [] => []
  | oldest, old, mid, l :: rest =>
      (threshWindow oldest old mid l).toList ++ threshScan old mid (some l) rest

/-- Modelled from the spec: `ThreshReLUMergeBatchNorm.apply` on a leaf
sequence. -/
def ThreshReLU_apply (leaves : List Leaf) : List (LinMod × BNMod × ReLUMod) :=
  threshScan none none none leaves

/-- Whether the 3-wide threshold pattern matches with the linear node at
position `j` of the leaf sequence (so `j - 2` is a batch norm and
`j - 1` a ReLU). -/
def threshMatch3 (leaves : List Leaf) (j : ℕ) : Prop :=
  2 ≤ j ∧
    (∃ b, leaves[j - 2]? = some (.bn b)) ∧
    (∃ r, leaves[j - 1]? = some (.relu r)) ∧
    (∃ m, leaves[j]? = some (.lin m))

/-- Whether the 4-wide threshold pattern (with pooling) matches with the
linear node at position `j` of the leaf sequence. -/
def threshMatch4 (leaves : List Leaf) (j : ℕ) : Prop :=
  3 ≤ j ∧
    (∃ b, leaves[j - 3]? = some (.bn b)) ∧
    (∃ r, leaves[j - 2]? = some (.relu r)) ∧
    leaves[j - 1]? = some .pool ∧
    (∃ m, leaves[j]? = some (.lin m))

/-- A named-module graph node, as returned by the named-node index
`dict(root_module.named_modules())`: the pairs the named matcher
resolves consist of linear-kind nodes and a batch norm. -/
inductive GNode
  | lin : LinMod → GNode
  | bn : BNMod → GNode

/-- Left-merge one graph node in place (loop body of
`MergeBatchNorm.merge_batch_norm` as invoked by the named matcher); a
non-linear node under a linear name is a malformed graph (spec §7) and
is left untouched here. -/
def mergeGNode (bn : BNMod) : GNode → GNode
  | .lin m => .lin (MergeBatchNorm_mergeMod bn m)
  | .bn b => .bn b

/-- Register one resolved pair of the name map: merge every linear node
of the pair and reset the batch norm (`instance.register(...)` inside
`NamedMergeBatchNorm.apply`). -/
def registerPairG (g : ℕ → Option GNode) (lnames : List ℕ) (bnname : ℕ) :
    ℕ → Option GNode :=
  match g bnname with
  | some (.bn b) =>
      let g1 := lnames.foldl
        (fun gg n => Function.update gg n ((gg n).map (mergeGNode b))) g
      Function.update g1 bnname (some (.bn (bnReset b)))
  | _ => g

/-- The first name of a pair that is absent from the named-node index,
in the order the source resolves them: the linear names (the list
comprehension), then the batch-norm name. -/
def firstMissing (g : ℕ → Option GNode) (lnames : List ℕ) (bnname : ℕ) :
    Option ℕ :=
  (lnames ++ [bnname]).find? (fun n => (g n).isNone)

/-- `NamedMergeBatchNorm.apply`: resolve and register the pairs of the
name map in order; a missing name raises a `KeyError` carrying that
name, which aborts the call — pairs already processed stay registered,
the remaining pairs are never touched.  The result is the final graph
together with the missing name, if any. -/
def NamedMergeBatchNorm_apply (name_map : List (List ℕ × ℕ))
    (g : ℕ → Option GNode) : (ℕ → Option GNode) × Option ℕ :=
  match name_map with
  | [] => (g, none)
  | (lnames, bnname) :: rest =>
      match firstMissing g lnames bnname with
      | some n => (g, some n)
      | none => NamedMergeBatchNorm_apply rest (registerPairG g lnames bnname)

/-- The loop of `CompositeCanonizer.apply`: thread the graph state
through the constituent canonizers in the order supplied, appending each
returned instance list to the accumulator. -/
def compLoop {σ ι : Type} : List (σ → σ × List ι) → σ → List ι → σ × List ι
  | [], s, acc => (s, acc)
  | c :: rest, s, acc =>
      let r := c s
      compLoop rest r.1 (acc ++ r.2)

/-- `CompositeCanonizer.apply`: apply every constituent canonizer in
order, concatenate the returned instances, and reverse the combined
list. -/
def CompositeCanonizer_apply {σ ι : Type} (cs : List (σ → σ × List ι))
    (s : σ) : σ × List ι :=
  let r := compLoop cs s []
  (r.1, r.2.reverse)

/-- The instance lists produced by the constituents, in construction
order, with the graph state threaded left to right (specification-side
view of the same traversal, used to state what `apply` returns). -/
def constituentLists {σ ι : Type} : List (σ → σ × List ι) → σ → List (List ι)
  | [], _ => []
  | c :: rest, s =>
      let r := c s
      r.2 :: constituentLists rest r.1

/-- Final graph state after all constituents ran in order
(specification-side view). -/
def constituentState {σ ι : Type} : List (σ → σ × List ι) → σ → σ
  | [], s => s
  | c :: rest, s => constituentState rest (c s).1

/-- `CompositeCanonizer.register`: a no-op (the body of the source
method is empty). -/
def CompositeCanonizer_register {σ : Type} (s : σ) : σ := s

/-- `CompositeCanonizer.remove`: a no-op (the body of the source method
is empty). -/
def CompositeCanonizer_remove {σ : Type} (s : σ) : σ := s

/-- The leaf `d` positions before position `j` of the sequence, if any
(place-holder `None` at the start of the traversal). -/
def optEl (leaves : List Leaf) (j d : ℕ) : Option Leaf :=
  if d ≤ j then leaves[j - d]? else none

/-- Random-access view of what `SequentialMergeBatchNorm.apply`
registers at position `j` (the position of the batch-norm leaf). -/
def seqSpecAt (leaves : List Leaf) (j : ℕ) : Option (LinMod × BNMod) :=
  match leaves[j]? with
  | some l => seqWindow (optEl leaves j 1) l
  | none => none

/-- Random-access view of what the intended
`ThreshReLUMergeBatchNorm.apply` registers at position `j` (the
position of the linear leaf). -/
def threshSpecAt (leaves : List Leaf) (j : ℕ) :
    Option (LinMod × BNMod × ReLUMod) :=
  match leaves[j]? with
  | some l =>
      threshWindow (optEl leaves j 3) (optEl leaves j 2) (optEl leaves j 1) l
  | none => none

/-- A linear module that carries no `canonization_params` attribute —
true of every module before canonization (the attribute only ever
exists while a padded-convolution right merge is registered). -/
def LinMod.noCanon : LinMod → Prop
  | .conv m => m.canonization_params = none
  | _ => True

/-- Register every pair of a (fully resolvable) name-map prefix in
order. -/
def registerAll (g : ℕ → Option GNode) (pre : List (List ℕ × ℕ)) :
    ℕ → Option GNode :=
  pre.foldl (fun gg p => registerPairG gg p.1 p.2) g

/-- Whether every pair of a name-map prefix resolves fully, in the
graph as threaded through the successive registrations. -/
def allResolveB : (ℕ → Option GNode) → List (List ℕ × ℕ) → Bool
  | _, [] => true
  | g, p :: rest =>
      (firstMissing g p.1 p.2).isNone && allResolveB (registerPairG g p.1 p.2) rest

/-- Example batch norm with two-valued scale:
`denominator = sqrt(3 + 1) = 2`, `scale = 4 / 2 = 2`,
`shift = 1 - 3 * 2 = -5` on every channel. -/
def exBN : BNMod :=
  { num_features := 1
    weight := fun _ => 4
    bias := fun _ => 1
    running_mean := fun _ => 3
    running_var := fun _ => 3
    eps := 1 }

/-- Example fully connected module `1 → 1` with unit weight and no
bias. -/
def exFC : FCMod :=
  { out_features := 1, in_features := 1, weight := fun _ _ => 1, bias := none }

/-- Example `1 → 1` convolution with `2 × 2` kernel, padding `(1, 1)`,
stride `(1, 1)`, unit weights and no bias. -/
def exConv : Conv2dMod :=
  { in_channels := 1
    out_channels := 1
    kh := 2
    kw := 2
    p1 := 1
    p2 := 1
    s1 := 1
    s2 := 1
    weight := fun _ _ _ _ => 1
    bias := none
    canonization_params := none
    fhooks := [] }

/-- Example `1 → 1` convolution with `1 × 1` kernel, padding `(0, 0)`,
stride `(1, 1)`, unit weight and no bias. -/
def exConv0 : Conv2dMod :=
  { in_channels := 1
    out_channels := 1
    kh := 1
    kw := 1
    p1 := 0
    p2 := 0
    s1 := 1
    s2 := 1
    weight := fun _ _ _ _ => 1
    bias := none
    canonization_params := none
    fhooks := [] }

/-- Example transposed convolution with 2 input channels and 3 output
channels (`weight.shape[0] = 2` but 3 output channels), `1 × 1` kernel,
no padding, unit stride, unit weights, no bias. -/
def exConvT : ConvT2dMod :=
  { in_channels := 2
    out_channels := 3
    kh := 1
    kw := 1
    p1 := 0
    p2 := 0
    s1 := 1
    s2 := 1
    weight := fun _ _ _ _ => 1
    bias := none }

/-- Example `1 → 1` transposed convolution with `1 × 1` kernel, no
padding, unit stride, unit weight, no bias. -/
def exCT10 : ConvT2dMod :=
  { in_channels := 1
    out_channels := 1
    kh := 1
    kw := 1
    p1 := 0
    p2 := 0
    s1 := 1
    s2 := 1
    weight := fun _ _ _ _ => 1
    bias := none }

/-- Example batch norm with `scale = 1` and `shift = 1`
(`denominator = sqrt(0 + 1) = 1`). -/
def exBN10 : BNMod :=
  { num_features := 1
    weight := fun _ => 1
    bias := fun _ => 1
    running_mean := fun _ => 0
    running_var := fun _ => 0
    eps := 1 }

/-- Example activation module with no hooks and no dynamic
attributes. -/
def exReLU : ReLUMod := ⟨none, [], []⟩

/-- Example leaf sequence for the sequential matcher: a transposed
convolution whose output-channel count (3) equals the channel count of
the following batch norm, while `weight.shape[0] = 2` does not. -/
def exLeaves7 : List Leaf :=
  [.lin (.convT exConvT),
    .bn { exBN with num_features := 3 }]

/-- Example named-module index: name `0` is a fully connected module,
name `1` a batch norm; no other name exists. -/
def exG8 : ℕ → Option GNode := fun n =>
  if n = 0 then some (.lin (.fc exFC))
  else if n = 1 then some (.bn exBN) else none

/-- Example name map whose first pair resolves and whose second pair
contains the missing name `2`. -/
def exNM8 : List (List ℕ × ℕ) := [([0], 1), ([2], 3)]

/-- Observation of the weight entry `(0, 0)` of the fully connected
module stored under name `0`, used to witness mutation of the graph. -/
def gW (g : ℕ → Option GNode) : Option ℚ :=
  match g 0 with
  | some (.lin (.fc f)) => some (f.weight 0 0)
  | _ => none

/-! ## Helper lemmas -/

/-- The rational square root of `1` is `1` (so a reset batch norm has
denominator `sqrt(1 + 0) = 1`). -/
theorem rat_sqrt_one : Rat.sqrt 1 = 1 := by decide

/-- A batch norm, evaluated as the source writes it, is the affine map
with slope `bnScale` and intercept `bnShift`.  The identity is a field
identity in the atoms `weight / denominator`, so it also holds when the
denominator is zero. -/
theorem bn_affine (bn : BNMod) (z : ℚ) (i : ℕ) :
    (z - bn.running_mean i) / bnDenom bn i * bn.weight i + bn.bias i
      = bnScale bn i * z + bnShift bn i := by
  unfold bnShift bnScale
  rw [div_mul_eq_mul_div, mul_div_assoc]
  ring

/-- `bnFwd` in affine form. -/
theorem bnFwd_affine (bn : BNMod) (x : ℕ → ℤ → ℤ → ℚ) (i : ℕ) (u v : ℤ) :
    bnFwd bn x i u v = bnScale bn i * x i u v + bnShift bn i :=
  bn_affine bn (x i u v) i

/-- `bnFwdVec` in affine form. -/
theorem bnFwdVec_affine (bn : BNMod) (x : ℕ → ℚ) (i : ℕ) :
    bnFwdVec bn x i = bnScale bn i * x i + bnShift bn i :=
  bn_affine bn (x i) i

/-- A reset batch norm computes the identity on images. -/
theorem bnReset_fwd (bn : BNMod) (x : ℕ → ℤ → ℤ → ℚ) (i : ℕ) (u v : ℤ) :
    bnFwd (bnReset bn) x i u v = x i u v := by
  unfold bnFwd bnDenom bnReset
  simp [rat_sqrt_one]

/-- A reset batch norm computes the identity on vectors. -/
theorem bnReset_fwdVec (bn : BNMod) (x : ℕ → ℚ) (i : ℕ) :
    bnFwdVec (bnReset bn) x i = x i := by
  unfold bnFwdVec bnDenom bnReset
  simp [rat_sqrt_one]

/-- Writing back the pre-merge weight and bias of a module undoes a
left merge entirely (no other field of the module is touched). -/
theorem restore_merge_left (bn : BNMod) (m : LinMod) :
    restoreMod (snapMod m) (MergeBatchNorm_mergeMod bn m) = m := by
  cases m <;> rfl

/-- A hook handle detaches exactly the hook whose registration appended
it to the end of the hook list. -/
theorem removeHandleAt_append (l : List HookTag) (t : HookTag) :
    removeHandleAt l.length (l ++ [t]) = l := by
  induction l with
  | nil => rfl
  | cons h tl ih =>
      simp only [removeHandleAt] at ih ⊢
      simp [ih]

/-! ## C1 — register/remove round trip -/

/-- Right merge followed by restoration gives back the original module
and batch norm. -/
theorem right_roundtrip (lin : LinMod) (bn : BNMod) (hnc : lin.noCanon) :
    MergeBatchNormtoRight_remove (MergeBatchNormtoRight_register lin bn).1
      (MergeBatchNormtoRight_register lin bn).2.1
      (MergeBatchNormtoRight_register lin bn).2.2 = (lin, bn) := by
  cases lin with
  | fc f => rfl
  | convT m => rfl
  | conv m =>
      obtain ⟨ic, oc, kh, kw, p1, p2, s1, s2, w, b, cp, fh⟩ := m
      have hc : cp = none := hnc
      subst hc
      by_cases hp : p1 = 0 ∧ p2 = 0
      · obtain ⟨h1, h2⟩ := hp
        subst h1
        subst h2
        rfl
      · unfold MergeBatchNormtoRight_register MergeBatchNormtoRight_mergeMod
          MergeBatchNormtoRight_mergeConv MergeBatchNormtoRight_remove
        dsimp only
        rw [if_neg hp]
        dsimp only [snapMod, restoreMod]
        simp only [List.foldl_cons, List.foldl_nil, removeConvHandle,
          removeHandleAt_append]
        rw [if_neg hp]
        rfl

/-- Threshold-ReLU register followed by remove gives back the original
module, batch norm and activation. -/
theorem thresh_roundtrip (lin : LinMod) (bn : BNMod) (relu : ReLUMod)
    (hnc : lin.noCanon) (hrc : relu.canonization_params = none) :
    ThreshReLU_remove (ThreshReLU_register lin bn relu).1
      (ThreshReLU_register lin bn relu).2.1
      (ThreshReLU_register lin bn relu).2.2.1
      (ThreshReLU_register lin bn relu).2.2.2 = (lin, bn, relu) := by
  have h := right_roundtrip lin bn hnc
  obtain ⟨c, ph, fhh⟩ := relu
  simp only at hrc
  subst hrc
  unfold ThreshReLU_register ThreshReLU_remove
  dsimp only
  rw [h]
  simp only [List.foldl_cons, List.foldl_nil, removeHandleAt_append]

/-- Left merge register followed by remove gives back the original
modules and batch norm. -/
theorem left_roundtrip (mods : List LinMod) (bn : BNMod) :
    MergeBatchNorm_remove (MergeBatchNorm_register mods bn).1
      (MergeBatchNorm_register mods bn).2.1
      (MergeBatchNorm_register mods bn).2.2 = (mods, bn) := by
  unfold MergeBatchNorm_register MergeBatchNorm_remove MergeBatchNorm_merge
  dsimp only
  refine Prod.ext ?_ rfl
  show ((mods.map (MergeBatchNorm_mergeMod bn)).zip (mods.map snapMod)).map
    (fun p => restoreMod p.2 p.1) = mods
  induction mods with
  | nil => rfl
  | cons m t ih => simp [restore_merge_left, ih]

/-- C1: for every matched pattern of any canonizer variant, `register()`
followed immediately by `remove()` leaves every tensor and
hyperparameter the canonizer mutated (linear weight, linear bias
including the bias-was-None case, the four normalization parameters,
and eps) identical to its pre-register value, and leaves no residual
hooks or synthesized attributes (such as `canonization_params`) on any
node.  The three conjuncts cover `MergeBatchNorm` (as used by the
sequential and named left-fusion matchers, over a whole list of linear
modules), `MergeBatchNormtoRight`, and `ThreshReLUMergeBatchNorm`; the
hypotheses state that the matched modules carry no
`canonization_params` attribute before canonization, which is true of
every plain module. -/
theorem claim_C1_register_remove_roundtrip :
    (∀ (mods : List LinMod) (bn : BNMod),
      MergeBatchNorm_remove (MergeBatchNorm_register mods bn).1
        (MergeBatchNorm_register mods bn).2.1
        (MergeBatchNorm_register mods bn).2.2 = (mods, bn)) ∧
    (∀ (lin : LinMod) (bn : BNMod), lin.noCanon →
      MergeBatchNormtoRight_remove (MergeBatchNormtoRight_register lin bn).1
        (MergeBatchNormtoRight_register lin bn).2.1
        (MergeBatchNormtoRight_register lin bn).2.2 = (lin, bn)) ∧
    (∀ (lin : LinMod) (bn : BNMod) (relu : ReLUMod), lin.noCanon →
      relu.canonization_params = none →
      ThreshReLU_remove (ThreshReLU_register lin bn relu).1
        (ThreshReLU_register lin bn relu).2.1
        (ThreshReLU_register lin bn relu).2.2.1
        (ThreshReLU_register lin bn relu).2.2.2 = (lin, bn, relu)) :=
  ⟨left_roundtrip, right_roundtrip, thresh_roundtrip⟩

/-- Witness for C1 at a concrete padded convolution, batch norm and
activation: the hypotheses hold and the round trip restores the exact
initial state. -/
theorem claim_C1_register_remove_roundtrip_witness :
    LinMod.noCanon (.conv exConv) ∧ exReLU.canonization_params = none ∧
    ThreshReLU_remove (ThreshReLU_register (.conv exConv) exBN exReLU).1
      (ThreshReLU_register (.conv exConv) exBN exReLU).2.1
      (ThreshReLU_register (.conv exConv) exBN exReLU).2.2.1
      (ThreshReLU_register (.conv exConv) exBN exReLU).2.2.2
      = (.conv exConv, exBN, exReLU) :=
  ⟨rfl, rfl,
    claim_C1_register_remove_roundtrip.2.2 (.conv exConv) exBN exReLU rfl rfl⟩

/-! ## C9 — composite canonizer -/

/-- The composite loop appends, in order, the instance lists produced
by the constituents to the accumulator, threading the graph state. -/
theorem compLoop_spec {σ ι : Type} (cs : List (σ → σ × List ι)) (s : σ)
    (acc : List ι) :
    compLoop cs s acc = (constituentState cs s, acc ++ (constituentLists cs s).flatten) := by
  induction cs generalizing s acc with
  | nil => simp [compLoop, constituentState, constituentLists]
  | cons c rest ih =>
      simp [compLoop, constituentState, constituentLists, ih]

/-- C9: `CompositeCanonizer.apply` invokes each constituent canonizer's
`apply` in the order the constituents were supplied (the graph state is
threaded left to right), concatenates all returned instance lists, and
returns the combined list reversed — the exact reverse of construction
order; `CompositeCanonizer.register` and `CompositeCanonizer.remove`
perform no mutation at all. -/
theorem claim_C9_composite {σ ι : Type} (cs : List (σ → σ × List ι)) (s : σ) :
    CompositeCanonizer_apply cs s
      = (constituentState cs s, (constituentLists cs s).flatten.reverse) ∧
    CompositeCanonizer_register s = s ∧ CompositeCanonizer_remove s = s := by
  refine ⟨?_, rfl, rfl⟩
  unfold CompositeCanonizer_apply
  rw [compLoop_spec]
  simp

/-! ## C10 — right merge into a transposed convolution -/

/-- C10: for a right-fusion match whose linear node is a transposed
convolution (accepted by the matcher's Linear-kind test), the merge
scales the weight by the normalization's scale along the input-channel
axis but never updates the node's bias (its values are unchanged; a
missing bias becomes explicit zeros) and installs no correction hook,
so the normalization's shift term is silently discarded and the rewrite
is not value-preserving: at a concrete input the fused module disagrees
with the original two-stage computation. -/
theorem claim_C10_convT_right_merge_drops_shift :
    (∀ (bn : BNMod) (m : ConvT2dMod),
      (MergeBatchNormtoRight_mergeMod bn (.convT m)).2 = [] ∧
      (MergeBatchNormtoRight_mergeConvT bn m).bias = some (biasVal m.bias) ∧
      (∀ i o a b, (MergeBatchNormtoRight_mergeConvT bn m).weight i o a b
          = m.weight i o a b * bnScale bn i)) ∧
    MergeBatchNormtoRight_apply [.bn exBN10, .lin (.convT exCT10)]
      = [(.convT exCT10, exBN10)] ∧
    ConvT2dMod.fwd (MergeBatchNormtoRight_mergeConvT exBN10 exCT10) 1 1
        (fun _ _ _ => 0) 0 0 0
      ≠ ConvT2dMod.fwd exCT10 1 1 (bnFwd exBN10 (fun _ _ _ => 0)) 0 0 0 := by
  refine ⟨fun bn m => ⟨rfl, rfl, fun i o a b => rfl⟩, rfl, ?_⟩
  simp [ConvT2dMod.fwd, MergeBatchNormtoRight_mergeConvT, exBN10, exCT10,
    bnFwd, bnScale, bnShift, bnDenom, biasVal, rat_sqrt_one,
    Finset.sum_range_succ]
  decide

/-! ## C7 — sequential left-fusion matcher (corrected) -/

/-- Scanning from a known previous leaf registers exactly the matching
adjacent pairs of the remaining sequence. -/
theorem seqScan_cons_spec (l : List Leaf) (a : Leaf) :
    seqScan (some a) l
      = ((a :: l).zip l).filterMap (fun p => seqWindow (some p.1) p.2) := by
  induction l generalizing a with
  | nil => rfl
  | cons b rest ih =>
      show (seqWindow (some a) b).toList ++ seqScan (some b) rest = _
      cases h : seqWindow (some a) b <;> simp [h, ih]

/-- The sequential matcher registers exactly the adjacent pairs of
leaves accepted by `seqWindow`, in traversal order. -/
theorem seqApply_spec (leaves : List Leaf) :
    SequentialMergeBatchNorm_apply leaves
      = (leaves.zip leaves.tail).filterMap (fun p => seqWindow (some p.1) p.2) := by
  cases leaves with
  | nil => rfl
  | cons a rest =>
      show (seqWindow none a).toList ++ seqScan (some a) rest = _
      simp [seqWindow, seqScan_cons_spec]

/-- C7 counterexample: a transposed convolution with 2 input and 3
output channels followed by a 3-channel batch norm.  The output-channel
count of the linear leaf equals the batch norm's channel count, yet the
matcher registers nothing, because the source compares
`weight.shape[0]` — the input-channel count of a transposed
convolution — against the batch norm's channel count. -/
theorem claim_C7_counterexample :
    LinMod.outChannels (.convT exConvT)
      = ({ exBN with num_features := 3 } : BNMod).num_features ∧
    SequentialMergeBatchNorm_apply exLeaves7 = [] := by
  exact ⟨rfl, rfl⟩

/-- C7 (amended): the sequential left-fusion matcher registers an
instance for a consecutive leaf pair exactly when the first leaf is
Linear-kind, the second is Normalization-kind, and the first leaf's
`weight.shape[0]` — the output-channel count for fully connected and
convolution nodes, but the input-channel count for ConvolutionTranspose
nodes — equals the second leaf's channel count; any other adjacent pair,
including a Linear/Normalization pair whose compared counts differ, is
silently skipped without error. -/
theorem claim_C7_sequential_matcher_amended (leaves : List Leaf) :
    SequentialMergeBatchNorm_apply leaves
      = (leaves.zip leaves.tail).filterMap (fun p => seqWindow (some p.1) p.2)
    ∧ (∀ (m : LinMod) (b : BNMod),
        seqWindow (some (.lin m)) (.bn b)
          = if m.weightShape0 = b.num_features then some (m, b) else none)
    ∧ (∀ (l1 l2 : Leaf), (seqWindow (some l1) l2).isSome ↔
        ∃ m b, l1 = .lin m ∧ l2 = .bn b ∧ m.weightShape0 = b.num_features) := by
  refine ⟨seqApply_spec leaves, fun m b => rfl, fun l1 l2 => ?_⟩
  cases l1 <;> cases l2 <;> simp [seqWindow]

/-! ## C8 — named matcher with a missing name (corrected) -/

/-- C8 counterexample: with a name map whose first pair resolves (names
`0`, `1`) and whose second pair starts with the missing name `2`,
`apply` aborts with the lookup error identifying name `2` — but the
first pair has already been registered: the weight of the module named
`0` has been mutated from `1` to `2`.  The claim's assertion that no
other matched pair is partially registered is therefore false. -/
theorem rat_sqrt_four : Rat.sqrt 4 = 2 := by
  rw [show (4 : ℚ) = 2 * 2 by norm_num, Rat.sqrt_eq]
  norm_num

/-- C8 counterexample, continued: the concrete evaluation. -/
theorem claim_C8_counterexample :
    (NamedMergeBatchNorm_apply exNM8 exG8).2 = some 2 ∧
    gW (NamedMergeBatchNorm_apply exNM8 exG8).1 = some 2 ∧
    gW exG8 = some 1 := by
  refine ⟨by decide, ?_, by decide⟩
  simp [exNM8, exG8, NamedMergeBatchNorm_apply, firstMissing,
    List.find?, registerPairG, mergeGNode, MergeBatchNorm_mergeMod,
    MergeBatchNorm_mergeFC, Function.update, gW, exFC, exBN, biasVal,
    bnScale, bnDenom, bnShift, rat_sqrt_four]
  rw [show (3 : ℚ) + 1 = 4 by norm_num, rat_sqrt_four]
  norm_num

/-- C8 (amended): when the name map contains a name absent from the
graph's named-node index, `apply` fails with a lookup error identifying
the first missing name (linear names of a pair are resolved in order,
then its batch-norm name) and aborts that call: pairs after the failing
pair are never touched, while the pairs fully processed before the
failure remain registered — the resulting graph is exactly the
registration of the preceding prefix. -/
theorem claim_C8_named_missing_amended
    (pre : List (List ℕ × ℕ)) (lnames : List ℕ) (bnname : ℕ)
    (post : List (List ℕ × ℕ)) (g : ℕ → Option GNode) (n : ℕ)
    (hres : allResolveB g pre = true)
    (hmiss : firstMissing (registerAll g pre) lnames bnname = some n) :
    NamedMergeBatchNorm_apply (pre ++ (lnames, bnname) :: post) g
      = (registerAll g pre, some n) := by
  induction pre generalizing g with
  | nil =>
      show NamedMergeBatchNorm_apply ((lnames, bnname) :: post) g = _
      unfold NamedMergeBatchNorm_apply
      rw [show registerAll g [] = g from rfl] at hmiss
      rw [hmiss]
      rfl
  | cons p rest ih =>
      obtain ⟨pl, pb⟩ := p
      simp only [allResolveB, Bool.and_eq_true, Option.isNone_iff_eq_none] at hres
      show NamedMergeBatchNorm_apply ((pl, pb) :: (rest ++ (lnames, bnname) :: post)) g = _
      unfold NamedMergeBatchNorm_apply
      rw [hres.1]
      exact ih (registerPairG g pl pb) hres.2 hmiss

/-- Witness for the amended C8 at the concrete graph and name map of
the counterexample. -/
theorem claim_C8_named_missing_amended_witness :
    allResolveB exG8 [([0], 1)] = true ∧
    firstMissing (registerAll exG8 [([0], 1)]) [2] 3 = some 2 ∧
    NamedMergeBatchNorm_apply [([0], 1), ([2], 3)] exG8
      = (registerAll exG8 [([0], 1)], some 2) :=
  ⟨by decide, by decide,
    claim_C8_named_missing_amended [([0], 1)] [2] 3 [] exG8 2
      (by decide) (by decide)⟩

/-! ## C2 — left fusion value equivalence -/

/-- Pulling a constant factor out of a triple sum. -/
theorem mul_sum3 (a : ℚ) (n1 n2 n3 : ℕ) (f : ℕ → ℕ → ℕ → ℚ) :
    (∑ i ∈ Finset.range n1, ∑ j ∈ Finset.range n2, ∑ k ∈ Finset.range n3,
        a * f i j k)
      = a * ∑ i ∈ Finset.range n1, ∑ j ∈ Finset.range n2,
          ∑ k ∈ Finset.range n3, f i j k := by
  simp [Finset.mul_sum]

/-- Left fusion preserves the fully connected forward pass:
evaluating the reset normalization after the merged module agrees with
the original normalization after the original module. -/
theorem left_fusion_fc (bn : BNMod) (f : FCMod) (x : ℕ → ℚ) (o : ℕ) :
    bnFwdVec (bnReset bn) (FCMod.fwd (MergeBatchNorm_mergeFC bn f) x) o
      = bnFwdVec bn (FCMod.fwd f x) o := by
  rw [bnReset_fwdVec, bnFwdVec_affine]
  unfold FCMod.fwd MergeBatchNorm_mergeFC bnShift
  simp only [biasVal, Option.getD_some]
  have hs : (∑ i ∈ Finset.range f.in_features,
      f.weight o i * bnScale bn o * x i)
      = bnScale bn o * ∑ i ∈ Finset.range f.in_features, f.weight o i * x i := by
    rw [Finset.mul_sum]
    exact Finset.sum_congr rfl fun i _ => by ring
  rw [hs]
  ring

/-- Left fusion preserves the 2d convolution forward pass. -/
theorem left_fusion_conv (bn : BNMod) (m : Conv2dMod) (H W : ℕ)
    (x : ℕ → ℤ → ℤ → ℚ) (o : ℕ) (r c : ℤ) :
    bnFwd (bnReset bn) (Conv2dMod.fwd (MergeBatchNorm_mergeConv bn m) H W x) o r c
      = bnFwd bn (Conv2dMod.fwd m H W x) o r c := by
  rw [bnReset_fwd, bnFwd_affine]
  unfold Conv2dMod.fwd MergeBatchNorm_mergeConv bnShift
  simp only [biasVal, Option.getD_some]
  have hs : (∑ i ∈ Finset.range m.in_channels, ∑ qh ∈ Finset.range m.kh,
      ∑ qw ∈ Finset.range m.kw,
        m.weight o i qh qw * bnScale bn o *
          zext H W x i (m.s1 * r - m.p1 + qh) (m.s2 * c - m.p2 + qw))
      = bnScale bn o * ∑ i ∈ Finset.range m.in_channels,
          ∑ qh ∈ Finset.range m.kh, ∑ qw ∈ Finset.range m.kw,
            m.weight o i qh qw *
              zext H W x i (m.s1 * r - m.p1 + qh) (m.s2 * c - m.p2 + qw) := by
    rw [← mul_sum3]
    refine Finset.sum_congr rfl fun i _ => Finset.sum_congr rfl fun a _ =>
      Finset.sum_congr rfl fun b _ => by ring
  rw [hs]
  ring

/-- Left fusion preserves the transposed-convolution forward pass (the
scale is broadcast along the output-channel axis, axis 1 of the
weight). -/
theorem left_fusion_convT (bn : BNMod) (m : ConvT2dMod) (H W : ℕ)
    (x : ℕ → ℤ → ℤ → ℚ) (o : ℕ) (r c : ℤ) :
    bnFwd (bnReset bn) (ConvT2dMod.fwd (MergeBatchNorm_mergeConvT bn m) H W x) o r c
      = bnFwd bn (ConvT2dMod.fwd m H W x) o r c := by
  rw [bnReset_fwd, bnFwd_affine]
  unfold ConvT2dMod.fwd MergeBatchNorm_mergeConvT bnShift
  simp only [biasVal, Option.getD_some]
  have hs : (∑ i ∈ Finset.range m.in_channels, ∑ u ∈ Finset.range H,
      ∑ v ∈ Finset.range W, ∑ qh ∈ Finset.range m.kh, ∑ qw ∈ Finset.range m.kw,
        (if (m.s1 * u : ℤ) + qh - m.p1 = r ∧ (m.s2 * v : ℤ) + qw - m.p2 = c
          then m.weight i o qh qw * bnScale bn o * x i u v else 0))
      = bnScale bn o * ∑ i ∈ Finset.range m.in_channels, ∑ u ∈ Finset.range H,
          ∑ v ∈ Finset.range W, ∑ qh ∈ Finset.range m.kh,
            ∑ qw ∈ Finset.range m.kw,
            (if (m.s1 * u : ℤ) + qh - m.p1 = r ∧ (m.s2 * v : ℤ) + qw - m.p2 = c
              then m.weight i o qh qw * x i u v else 0) := by
    simp only [Finset.mul_sum, mul_ite, mul_zero]
    refine Finset.sum_congr rfl fun i _ => Finset.sum_congr rfl fun u _ =>
      Finset.sum_congr rfl fun v _ => Finset.sum_congr rfl fun a _ =>
      Finset.sum_congr rfl fun b _ => ?_
    split <;> ring
  rw [hs]
  ring

/-- C2: for every matched pair of a linear node `L` (with or without a
bias; a zero bias is synthesized when absent) followed by a
normalization `N`, the left fusion sets `W' = W * scale` and
`b' = (b - N.mean) * scale + N.bias` with
`scale = N.weight / sqrt(N.var + eps)` broadcast along the
output-channel axis (axis 1 of the weight for ConvolutionTranspose,
axis 0 otherwise), resets `N` to the identity affine map (mean 0,
var 1, weight 1, bias 0, eps 0), and for every input `x` the post-merge
evaluation of the pair agrees with the pre-merge evaluation of
`N(L(x))` (exactly, in this rational-arithmetic embedding). -/
theorem claim_C2_left_fusion (bn : BNMod) :
    (∀ (f : FCMod) (o i : ℕ),
      (MergeBatchNorm_mergeFC bn f).weight o i = f.weight o i * bnScale bn o ∧
      biasVal (MergeBatchNorm_mergeFC bn f).bias o
        = (biasVal f.bias o - bn.running_mean o) * bnScale bn o + bn.bias o) ∧
    (∀ (m : Conv2dMod) (o i a b : ℕ),
      (MergeBatchNorm_mergeConv bn m).weight o i a b
        = m.weight o i a b * bnScale bn o) ∧
    (∀ (m : ConvT2dMod) (i o a b : ℕ),
      (MergeBatchNorm_mergeConvT bn m).weight i o a b
        = m.weight i o a b * bnScale bn o) ∧
    (∀ i, (bnReset bn).running_mean i = 0 ∧ (bnReset bn).running_var i = 1 ∧
      (bnReset bn).weight i = 1 ∧ (bnReset bn).bias i = 0) ∧
    (bnReset bn).eps = 0 ∧
    (∀ (f : FCMod) (x : ℕ → ℚ) (o : ℕ),
      bnFwdVec (bnReset bn) (FCMod.fwd (MergeBatchNorm_mergeFC bn f) x) o
        = bnFwdVec bn (FCMod.fwd f x) o) ∧
    (∀ (m : Conv2dMod) (H W : ℕ) (x : ℕ → ℤ → ℤ → ℚ) (o : ℕ) (r c : ℤ),
      bnFwd (bnReset bn) (Conv2dMod.fwd (MergeBatchNorm_mergeConv bn m) H W x) o r c
        = bnFwd bn (Conv2dMod.fwd m H W x) o r c) ∧
    (∀ (m : ConvT2dMod) (H W : ℕ) (x : ℕ → ℤ → ℤ → ℚ) (o : ℕ) (r c : ℤ),
      bnFwd (bnReset bn) (ConvT2dMod.fwd (MergeBatchNorm_mergeConvT bn m) H W x) o r c
        = bnFwd bn (ConvT2dMod.fwd m H W x) o r c) :=
  ⟨fun _ _ _ => ⟨rfl, rfl⟩, fun _ _ _ _ _ => rfl, fun _ _ _ _ _ => rfl,
    fun _ => ⟨rfl, rfl, rfl, rfl⟩, rfl,
    left_fusion_fc bn, left_fusion_conv bn, left_fusion_convT bn⟩

/-! ## C3 — right fusion, fully connected and zero-padding convolution -/

/-- Right fusion preserves the fully connected forward pass: the fused
module alone computes `L(N(x))`. -/
theorem right_fusion_fc (bn : BNMod) (f : FCMod) (x : ℕ → ℚ) (o : ℕ) :
    FCMod.fwd (MergeBatchNormtoRight_mergeFC bn f) x o
      = FCMod.fwd f (bnFwdVec bn x) o := by
  unfold FCMod.fwd MergeBatchNormtoRight_mergeFC
  dsimp only
  simp only [biasVal, Option.getD_some]
  have hsum : (∑ i ∈ Finset.range f.in_features, f.weight o i * bnFwdVec bn x i)
      = (∑ i ∈ Finset.range f.in_features, f.weight o i * bnScale bn i * x i)
        + ∑ i ∈ Finset.range f.in_features, f.weight o i * bnShift bn i := by
    rw [← Finset.sum_add_distrib]
    exact Finset.sum_congr rfl fun i _ => by rw [bnFwdVec_affine]; ring
  rw [hsum]
  ring

/-- Right fusion into a spatial convolution with zero padding preserves
the forward pass at every valid output position: the constant
per-channel shift passes through every fully-inside window
identically. -/
theorem right_fusion_conv_nopad (bn : BNMod) (m : Conv2dMod)
    (hp1 : m.p1 = 0) (hp2 : m.p2 = 0) (H W : ℕ) (x : ℕ → ℤ → ℤ → ℚ)
    (o : ℕ) (r c : ℤ) (hr0 : 0 ≤ r) (hrH : (m.s1 : ℤ) * r + m.kh ≤ (H : ℤ))
    (hc0 : 0 ≤ c) (hcW : (m.s2 : ℤ) * c + m.kw ≤ (W : ℤ)) :
    Conv2dMod.fwd (MergeBatchNormtoRight_mergeConv bn m).1 H W x o r c
      = Conv2dMod.fwd m H W (bnFwd bn x) o r c := by
  unfold MergeBatchNormtoRight_mergeConv
  rw [if_pos (⟨hp1, hp2⟩ : m.p1 = 0 ∧ m.p2 = 0)]
  unfold Conv2dMod.fwd
  dsimp only
  simp only [biasVal, Option.getD_some]
  have key : ∀ qh ∈ Finset.range m.kh, ∀ qw ∈ Finset.range m.kw, ∀ i : ℕ,
      zext H W (bnFwd bn x) i (m.s1 * r - m.p1 + qh) (m.s2 * c - m.p2 + qw)
        = bnScale bn i *
            zext H W x i (m.s1 * r - m.p1 + qh) (m.s2 * c - m.p2 + qw)
          + bnShift bn i := by
    intro qh hqh qw hqw i
    rw [Finset.mem_range] at hqh hqw
    have hin : 0 ≤ (m.s1 : ℤ) * r - m.p1 + qh ∧
        (m.s1 : ℤ) * r - m.p1 + qh < H ∧
        0 ≤ (m.s2 : ℤ) * c - m.p2 + qw ∧
        (m.s2 : ℤ) * c - m.p2 + qw < W := by
      have hs1 : 0 ≤ (m.s1 : ℤ) * r := by positivity
      have hs2 : 0 ≤ (m.s2 : ℤ) * c := by positivity
      omega
    unfold zext
    rw [if_pos hin, if_pos hin, bnFwd_affine]
  have hsum : (∑ i ∈ Finset.range m.in_channels, ∑ qh ∈ Finset.range m.kh,
      ∑ qw ∈ Finset.range m.kw, m.weight o i qh qw *
        zext H W (bnFwd bn x) i (m.s1 * r - m.p1 + qh) (m.s2 * c - m.p2 + qw))
      = (∑ i ∈ Finset.range m.in_channels, ∑ qh ∈ Finset.range m.kh,
          ∑ qw ∈ Finset.range m.kw, m.weight o i qh qw * bnScale bn i *
            zext H W x i (m.s1 * r - m.p1 + qh) (m.s2 * c - m.p2 + qw))
        + ∑ i ∈ Finset.range m.in_channels, ∑ qh ∈ Finset.range m.kh,
            ∑ qw ∈ Finset.range m.kw, m.weight o i qh qw * bnShift bn i := by
    simp only [← Finset.sum_add_distrib]
    refine Finset.sum_congr rfl fun i _ => Finset.sum_congr rfl fun qh hqh =>
      Finset.sum_congr rfl fun qw hqw => ?_
    rw [key qh hqh qw hqw i]
    ring
  rw [hsum]
  ring

/-- C3: for every right-fusion match where the linear node is fully
connected, or is a spatial convolution with zero padding, the merge
sets `W' = W * scale` broadcast over the input-channel axis, sets the
bias to the exact closed form `b' = sum over input axes of (W * shift)
+ b` with `shift = N.bias - N.mean * scale`, resets the normalization
to identity, installs no hook, and the fused node alone reproduces
`L(N(x))` (for the convolution: at every output position whose window
lies inside the input). -/
theorem claim_C3_right_fusion_closed_form (bn : BNMod) :
    (∀ (f : FCMod) (o i : ℕ),
      (MergeBatchNormtoRight_mergeFC bn f).weight o i
        = f.weight o i * bnScale bn i) ∧
    (∀ (f : FCMod) (o : ℕ),
      biasVal (MergeBatchNormtoRight_mergeFC bn f).bias o
        = (∑ i ∈ Finset.range f.in_features, f.weight o i * bnShift bn i)
          + biasVal f.bias o) ∧
    (∀ (m : Conv2dMod), m.p1 = 0 → m.p2 = 0 →
      (MergeBatchNormtoRight_mergeConv bn m).2 = [] ∧
      (∀ o i a b, (MergeBatchNormtoRight_mergeConv bn m).1.weight o i a b
        = m.weight o i a b * bnScale bn i) ∧
      (∀ o, biasVal (MergeBatchNormtoRight_mergeConv bn m).1.bias o
        = (∑ i ∈ Finset.range m.in_channels, ∑ qh ∈ Finset.range m.kh,
            ∑ qw ∈ Finset.range m.kw, m.weight o i qh qw * bnShift bn i)
          + biasVal m.bias o)) ∧
    (∀ (lin : LinMod), (MergeBatchNormtoRight_register lin bn).2.2 = bnReset bn) ∧
    (∀ (f : FCMod) (x : ℕ → ℚ) (o : ℕ),
      FCMod.fwd (MergeBatchNormtoRight_mergeFC bn f) x o
        = FCMod.fwd f (bnFwdVec bn x) o) ∧
    (∀ (m : Conv2dMod), m.p1 = 0 → m.p2 = 0 →
      ∀ (H W : ℕ) (x : ℕ → ℤ → ℤ → ℚ) (o : ℕ) (r c : ℤ),
      0 ≤ r → (m.s1 : ℤ) * r + m.kh ≤ (H : ℤ) →
      0 ≤ c → (m.s2 : ℤ) * c + m.kw ≤ (W : ℤ) →
      Conv2dMod.fwd (MergeBatchNormtoRight_mergeConv bn m).1 H W x o r c
        = Conv2dMod.fwd m H W (bnFwd bn x) o r c) := by
  refine ⟨fun _ _ _ => rfl, fun _ _ => rfl, fun m hp1 hp2 => ?_,
    fun _ => rfl, right_fusion_fc bn, fun m hp1 hp2 H W x o r c h1 h2 h3 h4 =>
      right_fusion_conv_nopad bn m hp1 hp2 H W x o r c h1 h2 h3 h4⟩
  unfold MergeBatchNormtoRight_mergeConv
  rw [if_pos (⟨hp1, hp2⟩ : m.p1 = 0 ∧ m.p2 = 0)]
  exact ⟨rfl, fun _ _ _ _ => rfl, fun _ => rfl⟩

/-- Witness for C3 at a concrete `1 × 1` zero-padding convolution and
batch norm. -/
theorem claim_C3_right_fusion_closed_form_witness :
    exConv0.p1 = 0 ∧ exConv0.p2 = 0 ∧ (0 : ℤ) ≤ 0 ∧
    ((exConv0.s1 : ℤ) * 0 + exConv0.kh ≤ ((1 : ℕ) : ℤ)) ∧
    ((exConv0.s2 : ℤ) * 0 + exConv0.kw ≤ ((1 : ℕ) : ℤ)) ∧
    Conv2dMod.fwd (MergeBatchNormtoRight_mergeConv exBN10 exConv0).1 1 1
        (fun _ _ _ => 1) 0 0 0
      = Conv2dMod.fwd exConv0 1 1 (bnFwd exBN10 (fun _ _ _ => 1)) 0 0 0 :=
  ⟨rfl, rfl, le_refl 0, by norm_num [exConv0], by norm_num [exConv0],
    (claim_C3_right_fusion_closed_form exBN10).2.2.2.2.2 exConv0 rfl rfl 1 1
      (fun _ _ _ => 1) 0 0 0 (le_refl 0) (by norm_num [exConv0])
      (le_refl 0) (by norm_num [exConv0])⟩

/-! ## C5 — threshold-ReLU rewrite -/

/-- Running any sequence of pre-hooks changes at most the stored
`original_x` snapshot: the `weights`/`biases` written at register time
and the hook lists survive. -/
theorem thresh_pre_fold (x : ℕ → ℤ → ℤ → ℚ) (l : List HookTag)
    (st : ReLUMod) (ws bs : ℕ → ℚ) (ox : Option (ℕ → ℤ → ℤ → ℚ))
    (h : st.canonization_params = some ⟨ws, bs, ox⟩) :
    ∃ ox2, l.foldl (fun s tag => applyReluPreHook tag s x) st
      = { st with canonization_params := some ⟨ws, bs, ox2⟩ } := by
  induction l generalizing st ox with
  | nil =>
      refine ⟨ox, ?_⟩
      show st = _
      rw [← h]
  | cons t rest ih =>
      simp only [List.foldl_cons]
      cases t with
      | threshPreT =>
          have hc : (applyReluPreHook .threshPreT st x).canonization_params
              = some ⟨ws, bs, some x⟩ := by
            simp [applyReluPreHook, h]
          obtain ⟨ox2, he⟩ := ih _ _ hc
          exact ⟨ox2, by rw [he]; simp [applyReluPreHook, h]⟩
      | convhookT => exact ih st ox h
      | threshFwdT => exact ih st ox h

/-- C5: after the threshold-activation rewrite is registered, a forward
evaluation of the activation node snapshots its raw input `x` in the
pre-hook, and the forward hook returns, per channel, `x` wherever
`scale * x + shift > 0` and `baseline = -shift / scale` elsewhere,
where `scale` and `shift` are computed from the normalization's own
parameters at register time and stored on the activation.  The branch
selection therefore matches the sign of the independently computed
pre-activation value `scale * x + shift` at every position. -/
theorem claim_C5_thresh_activation (lin : LinMod) (bn : BNMod)
    (relu : ReLUMod) (x : ℕ → ℤ → ℤ → ℚ) :
    ((ThreshReLU_register lin bn relu).2.2.2).canonization_params
      = some ⟨bnScale bn, bnShift bn, none⟩ ∧
    ∀ (i : ℕ) (u v : ℤ),
      ReLUMod.hookedFwd ((ThreshReLU_register lin bn relu).2.2.2) x i u v
        = if 0 < bnScale bn i * x i u v + bnShift bn i then x i u v
          else -(bnShift bn i / bnScale bn i) := by
  refine ⟨rfl, fun i u v => ?_⟩
  unfold ThreshReLU_register ReLUMod.hookedFwd
  dsimp only
  rw [List.foldl_append]
  obtain ⟨ox2, he⟩ := thresh_pre_fold x relu.prehooks
    { canonization_params := some ⟨bnScale bn, bnShift bn, none⟩
      prehooks := relu.prehooks ++ [.threshPreT]
      fhooks := relu.fhooks ++ [.threshFwdT] }
    (bnScale bn) (bnShift bn) none rfl
  rw [he]
  simp only [List.foldl_cons, List.foldl_nil, applyReluPreHook,
    Option.map_some']
  rw [List.foldl_append]
  simp only [List.foldl_cons, List.foldl_nil, applyReluFwdHook]

/-! ## C4 — right fusion into a padded convolution via the hook -/

/-- Per-axis correctness of the hook's index transformation: for a
kernel offset `q` inside the kernel and a full-resolution output
coordinate `rho` in the valid range, the input position `rho - p + q`
falls inside the real input (extent `ext`) exactly when the kernel-patch
position `hookIdx ext k p rho - p + q` falls inside the constant patch
(extent `k`).  Requires `k ≤ ext + 1`, i.e. the input reaches at least
the kernel size minus one. -/
theorem hookIdx_window (ext k p : ℕ) (rho : ℤ) (q : ℕ) (hq : q < k)
    (hek : (k : ℤ) ≤ (ext : ℤ) + 1)
    (h0 : 0 ≤ rho) (h1 : rho ≤ (ext : ℤ) + 2 * p - k) :
    ((0 ≤ rho - p + q ∧ rho - p + q < (ext : ℤ)) ↔
      (0 ≤ hookIdx ext k p rho - p + q ∧
        hookIdx ext k p rho - p + q < (k : ℤ))) := by
  unfold hookIdx
  split_ifs <;> omega

/-- The bias kernel evaluated at a position: the sum over kernel
offsets of `weight * shift`, restricted to offsets whose patch position
is inside the `kh × kw` patch. -/
theorem biasKernel_eval (m : Conv2dMod) (bn : BNMod) (o : ℕ) (rho gam : ℤ) :
    biasKernel m bn o rho gam
      = ∑ i ∈ Finset.range m.in_channels, ∑ qh ∈ Finset.range m.kh,
          ∑ qw ∈ Finset.range m.kw,
          m.weight o i qh qw *
            (if 0 ≤ rho - m.p1 + qh ∧ rho - m.p1 + qh < (m.kh : ℤ) ∧
                0 ≤ gam - m.p2 + qw ∧ gam - m.p2 + qw < (m.kw : ℤ)
              then bnShift bn i else 0) := by
  unfold biasKernel Conv2dMod.fwd zext biasVal
  dsimp only
  simp [one_mul]

/-- The hooked fused convolution reproduces the original two-stage
computation `L(N(x))` at every valid output position, for a convolution
with nonzero padding.  Hypotheses: the module has no prior forward
hooks; the padding is not `(0, 0)` (the hook branch); the claim's
precondition that the kernel extent strictly exceeds the padding on
each axis; the input reaches at least kernel extent minus one on each
axis (so the interior expansion count `input - kernel + 1` is
meaningful); and `(r, c)` is a valid output position. -/
theorem right_fusion_conv_padded (bn : BNMod) (m : Conv2dMod) (H W : ℕ)
    (hfh : m.fhooks = [])
    (hnp : ¬(m.p1 = 0 ∧ m.p2 = 0))
    (_hk1 : m.p1 < m.kh) (_hk2 : m.p2 < m.kw)
    (hH : (m.kh : ℤ) ≤ (H : ℤ) + 1) (hW : (m.kw : ℤ) ≤ (W : ℤ) + 1)
    (x : ℕ → ℤ → ℤ → ℚ) (o : ℕ) (r c : ℤ)
    (hr0 : 0 ≤ r) (hr1 : (m.s1 : ℤ) * r ≤ (H : ℤ) + 2 * m.p1 - m.kh)
    (hc0 : 0 ≤ c) (hc1 : (m.s2 : ℤ) * c ≤ (W : ℤ) + 2 * m.p2 - m.kw) :
    Conv2dMod.hookedFwd (MergeBatchNormtoRight_mergeConv bn m).1 H W x o r c
      = Conv2dMod.fwd m H W (bnFwd bn x) o r c := by
  have hrho0 : (0 : ℤ) ≤ (m.s1 : ℤ) * r := mul_nonneg (Int.natCast_nonneg _) hr0
  have hgam0 : (0 : ℤ) ≤ (m.s2 : ℤ) * c := mul_nonneg (Int.natCast_nonneg _) hc0
  unfold MergeBatchNormtoRight_mergeConv
  rw [if_neg hnp]
  unfold Conv2dMod.hookedFwd
  dsimp only
  rw [hfh]
  simp only [List.nil_append, List.foldl_cons, List.foldl_nil]
  unfold applyConvHook
  dsimp only
  unfold Conv2dMod.fwd convhookMap
  dsimp only
  simp only [biasVal, Option.getD_some]
  have hsplit : (∑ i ∈ Finset.range m.in_channels, ∑ qh ∈ Finset.range m.kh,
      ∑ qw ∈ Finset.range m.kw, m.weight o i qh qw *
        zext H W (bnFwd bn x) i (m.s1 * r - m.p1 + qh) (m.s2 * c - m.p2 + qw))
      = (∑ i ∈ Finset.range m.in_channels, ∑ qh ∈ Finset.range m.kh,
          ∑ qw ∈ Finset.range m.kw, m.weight o i qh qw * bnScale bn i *
            zext H W x i (m.s1 * r - m.p1 + qh) (m.s2 * c - m.p2 + qw))
        + ∑ i ∈ Finset.range m.in_channels, ∑ qh ∈ Finset.range m.kh,
            ∑ qw ∈ Finset.range m.kw, m.weight o i qh qw *
              (if 0 ≤ hookIdx H m.kh m.p1 (m.s1 * r) - m.p1 + qh ∧
                  hookIdx H m.kh m.p1 (m.s1 * r) - m.p1 + qh < (m.kh : ℤ) ∧
                  0 ≤ hookIdx W m.kw m.p2 (m.s2 * c) - m.p2 + qw ∧
                  hookIdx W m.kw m.p2 (m.s2 * c) - m.p2 + qw < (m.kw : ℤ)
                then bnShift bn i else 0) := by
    simp only [← Finset.sum_add_distrib]
    refine Finset.sum_congr rfl fun i _ => Finset.sum_congr rfl fun qh hqh =>
      Finset.sum_congr rfl fun qw hqw => ?_
    rw [Finset.mem_range] at hqh hqw
    have hrow := hookIdx_window H m.kh m.p1 (m.s1 * r) qh hqh hH hrho0 hr1
    have hcol := hookIdx_window W m.kw m.p2 (m.s2 * c) qw hqw hW hgam0 hc1
    unfold zext
    by_cases hin : 0 ≤ (m.s1 : ℤ) * r - m.p1 + qh ∧
        (m.s1 : ℤ) * r - m.p1 + qh < (H : ℤ) ∧
        0 ≤ (m.s2 : ℤ) * c - m.p2 + qw ∧
        (m.s2 : ℤ) * c - m.p2 + qw < (W : ℤ)
    · have hinK : 0 ≤ hookIdx H m.kh m.p1 (m.s1 * r) - m.p1 + qh ∧
          hookIdx H m.kh m.p1 (m.s1 * r) - m.p1 + qh < (m.kh : ℤ) ∧
          0 ≤ hookIdx W m.kw m.p2 (m.s2 * c) - m.p2 + qw ∧
          hookIdx W m.kw m.p2 (m.s2 * c) - m.p2 + qw < (m.kw : ℤ) := by
        obtain ⟨a, b, cc, d⟩ := hin
        obtain ⟨a2, b2⟩ := hrow.mp ⟨a, b⟩
        obtain ⟨c2, d2⟩ := hcol.mp ⟨cc, d⟩
        exact ⟨a2, b2, c2, d2⟩
      rw [if_pos hin, if_pos hin, if_pos hinK, bnFwd_affine]
      ring
    · have hinK : ¬(0 ≤ hookIdx H m.kh m.p1 (m.s1 * r) - m.p1 + qh ∧
          hookIdx H m.kh m.p1 (m.s1 * r) - m.p1 + qh < (m.kh : ℤ) ∧
          0 ≤ hookIdx W m.kw m.p2 (m.s2 * c) - m.p2 + qw ∧
          hookIdx W m.kw m.p2 (m.s2 * c) - m.p2 + qw < (m.kw : ℤ)) := by
        intro hK
        apply hin
        obtain ⟨a2, b2, c2, d2⟩ := hK
        obtain ⟨a, b⟩ := hrow.mpr ⟨a2, b2⟩
        obtain ⟨cc, d⟩ := hcol.mpr ⟨c2, d2⟩
        exact ⟨a, b, cc, d⟩
      rw [if_neg hin, if_neg hin, if_neg hinK]
      ring
  rw [hsplit, biasKernel_eval]
  ring

/-- C4: for a right-fusion match into a spatial convolution with
nonzero padding, the merge precomputes the bias kernel (the
shift-valued constant patch of the kernel's spatial size run through a
bias-free stride-1 copy of the convolution with the same padding and
weight), stores it as `canonization_params`, installs `convhook` as a
forward hook (returning its handle), and scales the weight along the
input-channel axis; the hook keeps the padding border of the bias
kernel, expands the single interior row/column to
`input_extent - kernel_extent + 1` positions, and keeps only
coordinates that are exact multiples of the stride (reading
full-resolution coordinate `stride * r`).  Under the claim's
precondition that the kernel extent strictly exceeds the padding on
each axis (plus input extents of at least kernel extent minus one, so
the interior expansion is meaningful), the hooked fused convolution
reproduces `L(N(x))` at every valid output position of every input. -/
theorem claim_C4_padded_convolution_hook (bn : BNMod) (m : Conv2dMod)
    (hnp : ¬(m.p1 = 0 ∧ m.p2 = 0)) :
    (MergeBatchNormtoRight_mergeConv bn m).1.canonization_params
      = some (biasKernel m bn) ∧
    (MergeBatchNormtoRight_mergeConv bn m).1.fhooks
      = m.fhooks ++ [.convhookT] ∧
    (MergeBatchNormtoRight_mergeConv bn m).2 = [m.fhooks.length] ∧
    (∀ o i a b, (MergeBatchNormtoRight_mergeConv bn m).1.weight o i a b
      = m.weight o i a b * bnScale bn i) ∧
    (m.fhooks = [] → m.p1 < m.kh → m.p2 < m.kw →
      ∀ (H W : ℕ), (m.kh : ℤ) ≤ (H : ℤ) + 1 → (m.kw : ℤ) ≤ (W : ℤ) + 1 →
      ∀ (x : ℕ → ℤ → ℤ → ℚ) (o : ℕ) (r c : ℤ),
        0 ≤ r → (m.s1 : ℤ) * r ≤ (H : ℤ) + 2 * m.p1 - m.kh →
        0 ≤ c → (m.s2 : ℤ) * c ≤ (W : ℤ) + 2 * m.p2 - m.kw →
        Conv2dMod.hookedFwd (MergeBatchNormtoRight_mergeConv bn m).1 H W x o r c
          = Conv2dMod.fwd m H W (bnFwd bn x) o r c) := by
  refine ⟨?_, ?_, ?_, ?_, fun hfh hka hkb H W hH hW x o r c h1 h2 h3 h4 =>
    right_fusion_conv_padded bn m H W hfh hnp hka hkb hH hW x o r c h1 h2 h3 h4⟩
  all_goals
    unfold MergeBatchNormtoRight_mergeConv
    rw [if_neg hnp]
  exact fun _ _ _ _ => rfl

/-- Witness for C4 at a concrete `2 × 2` kernel with padding `(1, 1)`
on a `2 × 2` input. -/
theorem claim_C4_padded_convolution_hook_witness :
    ¬(exConv.p1 = 0 ∧ exConv.p2 = 0) ∧
    exConv.fhooks = [] ∧ exConv.p1 < exConv.kh ∧ exConv.p2 < exConv.kw ∧
    ((exConv.kh : ℤ) ≤ ((2 : ℕ) : ℤ) + 1) ∧
    ((exConv.kw : ℤ) ≤ ((2 : ℕ) : ℤ) + 1) ∧
    ((0 : ℤ) ≤ 0) ∧
    ((exConv.s1 : ℤ) * 0 ≤ ((2 : ℕ) : ℤ) + 2 * exConv.p1 - exConv.kh) ∧
    ((exConv.s2 : ℤ) * 0 ≤ ((2 : ℕ) : ℤ) + 2 * exConv.p2 - exConv.kw) ∧
    Conv2dMod.hookedFwd (MergeBatchNormtoRight_mergeConv exBN10 exConv).1 2 2
        (fun _ _ _ => 1) 0 0 0
      = Conv2dMod.fwd exConv 2 2 (bnFwd exBN10 (fun _ _ _ => 1)) 0 0 0 :=
  ⟨by decide, rfl, by decide, by decide, by decide, by decide, le_refl 0,
    by decide, by decide,
    (claim_C4_padded_convolution_hook exBN10 exConv (by decide)).2.2.2.2
      rfl (by decide) (by decide) 2 2 (by decide) (by decide)
      (fun _ _ _ => 1) 0 0 0 (le_refl 0) (by decide) (le_refl 0) (by decide)⟩

/-! ## C6 — threshold matcher window scan -/

/-- Shifting the reference position of `optEl` by one. -/
theorem optEl_succ (leaves : List Leaf) (t d : ℕ) :
    optEl leaves (t + 1) (d + 1) = optEl leaves t d := by
  unfold optEl
  have h : d + 1 ≤ t + 1 ↔ d ≤ t := by omega
  by_cases hd : d ≤ t
  · rw [if_pos (h.mpr hd), if_pos hd]
    congr 1
    omega
  · rw [if_neg (fun hh => hd (h.mp hh)), if_neg hd]

/-- A present `optEl` value is a real element of the sequence. -/
theorem optEl_eq_some {leaves : List Leaf} {j d : ℕ} {a : Leaf}
    (h : optEl leaves j d = some a) : d ≤ j ∧ leaves[j - d]? = some a := by
  unfold optEl at h
  by_cases hd : d ≤ j
  · rw [if_pos hd] at h
    exact ⟨hd, h⟩
  · rw [if_neg hd] at h
    cases h

/-- The window scan started at position `t` (with the three previous
leaves as carried state) registers exactly the positions accepted by
the random-access window view. -/
theorem threshScan_spec_aux (l : List Leaf) : ∀ (leaves : List Leaf) (t : ℕ),
    leaves.drop t = l →
    threshScan (optEl leaves t 3) (optEl leaves t 2) (optEl leaves t 1) l
      = (List.range' t l.length).filterMap (threshSpecAt leaves) := by
  induction l with
  | nil => intro leaves t _; rfl
  | cons a rest ih =>
      intro leaves t h
      have hget : leaves[t]? = some a := by
        have hh := congrArg List.head? h
        rwa [List.head?_drop] at hh
      have hdrop : leaves.drop (t + 1) = rest := by
        have hh : (leaves.drop t).tail = rest := by rw [h]; rfl
        rwa [List.tail_drop] at hh
      have hspec : threshSpecAt leaves t
          = threshWindow (optEl leaves t 3) (optEl leaves t 2)
              (optEl leaves t 1) a := by
        unfold threshSpecAt
        rw [hget]
      have htail : threshScan (optEl leaves t 2) (optEl leaves t 1)
            (some a) rest
          = (List.range' (t + 1) rest.length).filterMap (threshSpecAt leaves) := by
        have e3 := optEl_succ leaves t 2
        have e2 := optEl_succ leaves t 1
        have e1 : optEl leaves (t + 1) 1 = some a := by
          unfold optEl
          rw [if_pos (by omega)]
          simpa using hget
        rw [← e3, ← e2, ← e1]
        exact ih leaves (t + 1) hdrop
      show (threshWindow _ _ _ a).toList ++ threshScan _ _ (some a) rest = _
      simp only [List.length_cons]
      rw [htail, show List.range' t (rest.length + 1)
        = t :: List.range' (t + 1) rest.length from rfl, List.filterMap_cons,
        ← hspec]
      cases hX : threshSpecAt leaves t <;> simp [hX]

/-- Top-level form of the window-scan characterization. -/
theorem threshApply_spec (leaves : List Leaf) :
    ThreshReLU_apply leaves
      = (List.range leaves.length).filterMap (threshSpecAt leaves) := by
  have h := threshScan_spec_aux leaves leaves 0 (List.drop_zero leaves)
  rw [List.range_eq_range']
  exact h

/-- A successful window match is one of the two patterns: the 3-wide
batch norm → ReLU → Linear window, or (only when that one does not
apply, by arm order) the 4-wide batch norm → ReLU → pool → Linear
window. -/
theorem threshWindow_eq_some {o3 o2 o1 : Option Leaf} {l : Leaf}
    {p : LinMod × BNMod × ReLUMod} (h : threshWindow o3 o2 o1 l = some p) :
    (∃ b r mm, o2 = some (.bn b) ∧ o1 = some (.relu r) ∧ l = .lin mm ∧
      p = (mm, b, r)) ∨
    (∃ b r mm, o3 = some (.bn b) ∧ o2 = some (.relu r) ∧ o1 = some .pool ∧
      l = .lin mm ∧ p = (mm, b, r)) := by
  rcases o3 with _ | (m3 | b3 | r3 | _ | _) <;>
    rcases o2 with _ | (m2 | b2 | r2 | _ | _) <;>
    rcases o1 with _ | (m1 | b1 | r1 | _ | _) <;>
    rcases l with m | b | r | _ | _ <;>
    simp_all [threshWindow]

/-- C6 (for the intended scan, see the `Leaf` model note: the source's
`apply` refers to the unimported names `ReLU` and `AdaptiveAvgPool2d`
and therefore raises a `NameError` as written): the threshold matcher
scans the leaf sequence with a 3-wide window
Normalization → Activation → Linear and a 4-wide window
Normalization → Activation → Pool → Linear, registering exactly one
instance per matching position — the 3-wide pattern when it matches,
otherwise (`elif`) the 4-wide pattern — and nothing at any other
position, so no position is registered twice. -/
theorem claim_C6_threshold_window_scan (leaves : List Leaf) :
    ThreshReLU_apply leaves
      = (List.range leaves.length).filterMap (threshSpecAt leaves) ∧
    (∀ j b r mm, leaves[j - 2]? = some (.bn b) →
      leaves[j - 1]? = some (.relu r) → leaves[j]? = some (.lin mm) →
      2 ≤ j → threshSpecAt leaves j = some (mm, b, r)) ∧
    (∀ j b r mm, leaves[j - 3]? = some (.bn b) →
      leaves[j - 2]? = some (.relu r) → leaves[j - 1]? = some .pool →
      leaves[j]? = some (.lin mm) → 3 ≤ j →
      threshSpecAt leaves j = some (mm, b, r)) ∧
    (∀ j p, threshSpecAt leaves j = some p →
      threshMatch3 leaves j ∨ threshMatch4 leaves j) := by
  refine ⟨threshApply_spec leaves, ?_, ?_, ?_⟩
  · intro j b r mm h2 h1 h0 hj
    unfold threshSpecAt
    rw [h0]
    have e2 : optEl leaves j 2 = some (.bn b) := by
      unfold optEl
      rw [if_pos hj]
      exact h2
    have e1 : optEl leaves j 1 = some (.relu r) := by
      unfold optEl
      rw [if_pos (by omega)]
      exact h1
    rw [e2, e1]
    rcases h3 : optEl leaves j 3 with _ | l3
    · rfl
    · cases l3 <;> rfl
  · intro j b r mm h3 h2 h1 h0 hj
    unfold threshSpecAt
    rw [h0]
    have e3 : optEl leaves j 3 = some (.bn b) := by
      unfold optEl
      rw [if_pos hj]
      exact h3
    have e2 : optEl leaves j 2 = some (.relu r) := by
      unfold optEl
      rw [if_pos (by omega)]
      exact h2
    have e1 : optEl leaves j 1 = some .pool := by
      unfold optEl
      rw [if_pos (by omega)]
      exact h1
    rw [e3, e2, e1]
    rfl
  · intro j p hp
    unfold threshSpecAt at hp
    rcases hl : leaves[j]? with _ | l
    · rw [hl] at hp
      cases hp
    · rw [hl] at hp
      dsimp only at hp
      rcases threshWindow_eq_some hp with ⟨b, r, mm, e2, e1, el, _⟩ |
        ⟨b, r, mm, e3, e2, e1, el, _⟩
      · obtain ⟨hj2, hg2⟩ := optEl_eq_some e2
        obtain ⟨_, hg1⟩ := optEl_eq_some e1
        subst el
        exact Or.inl ⟨hj2, ⟨b, hg2⟩, ⟨r, hg1⟩, ⟨mm, hl⟩⟩
      · obtain ⟨hj3, hg3⟩ := optEl_eq_some e3
        obtain ⟨_, hg2⟩ := optEl_eq_some e2
        obtain ⟨_, hg1⟩ := optEl_eq_some e1
        subst el
        exact Or.inr ⟨hj3, ⟨b, hg3⟩, ⟨r, hg2⟩, hg1, ⟨mm, hl⟩⟩
